import Mathlib

/-
Verification of the evaluation utilities of the Boardgames-recommending-system
repository (file tools/testing.py).  The four functions of that file —
split_ratings_dataset, split_testing_set, coverage and diversity — are embedded
below as pure Lean functions over lists of records.  Tables are lists of rows;
the pandas row order inside a table is the list order, and a row carries the
user column, the item column and a stand-in for the remaining columns.

The NumPy global random generator is modelled by a Nat state threaded through
the functions; np.random.seed overwrites that state deterministically.  The
concrete generator below is a small linear congruential generator standing in
for NumPy's MT19937: every theorem about randomised behaviour only uses the
facts that the generator is a deterministic function of its state and that the
permutations drawn from it are permutations of their input, which hold of
NumPy's generator as well.

Fallible operations (np.random.choice with an oversized or negative sample,
np.hstack of an empty collection, pd.concat of an empty list, a missing
criterion column) are modelled with Except String, the message naming the
Python exception that the library call raises.

Python floats are modelled as rationals; int() is truncation towards zero and
round() is round-half-to-even, as in Python 3.  All rational arithmetic in
executable positions is done directly on numerators and denominators so that
every definition evaluates inside the kernel.
-/

namespace BG

/-- Linear congruential update of the modelled global NumPy generator state. -/
def rngNext (s : Nat) : Nat := (s * 1103515245 + 12345) % 2147483648

/-- Model of np.random.seed: the global state becomes a function of the seed alone. -/
def npSeed (seed : Nat) : Nat := seed % 2147483648

/-- State of the global generator after the optional np.random.seed call at the
top of split_ratings_dataset and split_testing_set: an explicit seed overwrites
the incoming global state, no seed leaves it untouched. -/
def seedState : Option Nat → Nat → Nat
  | some s, _ => npSeed s
  | none, g => g

/-- Draw a number below n (for n positive) together with the new generator state. -/
def randBelow (g n : Nat) : Nat × Nat :=
  let g1 := rngNext g
  (g1 % n, g1)

/-- Fuelled permutation draw: repeatedly pick a position of the remaining list
and move that element to the front.  The fuel is only there to make the
recursion structural; drawPerm always supplies enough fuel. -/
def drawPermFuel {α : Type*} : Nat → Nat → List α → List α × Nat
  | 0, g, l => (l, g)
  | _ + 1, g, [] => ([], g)
  | fuel + 1, g, a :: t =>
    let p := randBelow g (a :: t).length
    let x := (a :: t).getD p.1 a
    let rest := (a :: t).eraseIdx p.1
    let q := drawPermFuel fuel p.2 rest
    (x :: q.1, q.2)

/-- Model of np.random.shuffle / np.random.permutation: a permutation of the
input list determined by the generator state, together with the new state. -/
def drawPerm {α : Type*} (g : Nat) (l : List α) : List α × Nat :=
  drawPermFuel l.length g l

/-- Model of pandas Series.unique: distinct values in order of first appearance. -/
def uniqueFirst : List Nat → List Nat
  | [] => []
  | a :: l => a :: ((uniqueFirst l).filter (fun b => !(b == a)))

/-- Row of a ratings table: the bgg_user_name column, the bgg_id column, and a
rating value standing for the remaining columns, which the splitting functions
pass through untouched. -/
structure Row where
  bgg_user_name : Nat
  bgg_id : Nat
  rating : Int
deriving DecidableEq, Repr

/-- Python int() applied to frac * n: truncation of the rational towards zero. -/
def pyTruncMul (frac : ℚ) (n : Nat) : Int := (frac.num * n).tdiv frac.den

/-- Floor of frac * n, computed on the numerator and denominator. -/
def ratFloorMul (frac : ℚ) (n : Nat) : Int := (frac.num * n).fdiv frac.den

/-- Python 3 round() applied to frac * n: round half to even. -/
def roundHalfEvenMul (frac : ℚ) (n : Nat) : Int :=
  let a : Int := frac.num * n
  let b : Int := frac.den
  let f := a.fdiv b
  let r2 := 2 * (a - f * b)
  if r2 < b then f
  else if b < r2 then f + 1
  else if f % 2 = 0 then f else f + 1

/-- Python slice l[:k] for a possibly negative k. -/
def pySliceTake {α : Type*} (k : Int) (l : List α) : List α :=
  if 0 ≤ k then l.take k.toNat else l.take (l.length - (-k).toNat)

/-- Python slice l[k:] for a possibly negative k. -/
def pySliceDrop {α : Type*} (k : Int) (l : List α) : List α :=
  if 0 ≤ k then l.drop k.toNat else l.drop (l.length - (-k).toNat)

/-- Shuffled array of distinct users of the ratings table, as built by
split_ratings_dataset from ratings_df with unique() followed by
np.random.shuffle, together with the generator state after the shuffle. -/
def shuffledUsers (t : List Row) (seed : Option Nat) (g0 : Nat) : List Nat × Nat :=
  drawPerm (seedState seed g0) (uniqueFirst (t.map Row.bgg_user_name))

/-- Embedding of split_ratings_dataset: seed the generator if a seed is given,
shuffle the distinct users, cut the shuffled user array at int(frac * count),
and select the rows of each cohort with isin.  Returns the train and test
tables and the generator state after the call. -/
def split_ratings_dataset (t : List Row) (seed : Option Nat) (frac : ℚ) (g0 : Nat) :
    (List Row × List Row) × Nat :=
  let p := shuffledUsers t seed g0
  let trainSize := pyTruncMul frac p.1.length
  let trainUsers := pySliceTake trainSize p.1
  let testUsers := pySliceDrop trainSize p.1
  ((t.filter (fun r => trainUsers.contains r.bgg_user_name),
    t.filter (fun r => testUsers.contains r.bgg_user_name)), p.2)

/-- Model of np.random.choice(n, k, replace=False) for k already checked to be
at most n: a permutation of range n, truncated to the first k positions. -/
def npChoice (g n k : Nat) : List Nat × Nat :=
  let p := drawPerm g (List.range n)
  (p.1.take k, p.2)

/-- Loop body of split_testing_set over the groupby user groups.  For each user
in turn: take that user's rows in table order, draw round(frac * size) distinct
row positions as the known part, the complementary positions (in ascending
order, as np.setdiff1d returns them) as the held-out part, and append both to
the running concatenations.  Errors model the ValueError raised by
np.random.choice when the requested sample size is negative or exceeds the
population. -/
def stsUsers (t : List Row) (frac : ℚ) :
    Nat → List Nat → Except String (List Row × List Row × Nat)
  | g, [] => .ok ([], [], g)
  | g, u :: us =>
    let df := t.filter (fun r => r.bgg_user_name == u)
    let n := df.length
    let k := roundHalfEvenMul frac n
    if k < 0 then .error "ValueError: negative dimensions are not allowed"
    else if n < k.toNat then
      .error "Cannot take a larger sample than population when replace=False"
    else
      let c := npChoice g n k.toNat
      let known := c.1.filterMap (fun i => df[i]?)
      let unknown := ((List.range n).filter (fun i => !(c.1.contains i))).filterMap
        (fun i => df[i]?)
      match stsUsers t frac c.2 us with
      | .error e => .error e
      | .ok (ks, hs, g2) => .ok (known ++ ks, unknown ++ hs, g2)

/-- Embedding of split_testing_set: seed the generator if asked, group the
table by user, split every group with np.random.choice, and concatenate the
known parts and the held-out parts.  pd.concat raises on an empty input, which
happens exactly when the table has no rows, hence no groups.  The groups are
processed in order of first appearance of the user; pandas groupby sorts the
group keys instead, which permutes the concatenated rows and relabels which
random draw serves which user but does not affect any property stated below. -/
def split_testing_set (t : List Row) (seed : Option Nat) (frac : ℚ) (g0 : Nat) :
    Except String ((List Row × List Row) × Nat) :=
  let g := seedState seed g0
  let users := uniqueFirst (t.map Row.bgg_user_name)
  if users.isEmpty then .error "No objects to concatenate"
  else
    match stsUsers t frac g users with
    | .error e => .error e
    | .ok (ks, hs, g2) => .ok ((ks, hs), g2)

/-- Success test for a modelled library call. -/
def exOk {α : Type*} : Except String α → Bool
  | .ok _ => true
  | .error _ => false

/-- Known part returned by split_testing_set, empty if the call raised. -/
def stsKnown (t : List Row) (seed : Option Nat) (frac : ℚ) (g0 : Nat) : List Row :=
  match split_testing_set t seed frac g0 with
  | .ok p => p.1.1
  | .error _ => []

/-- Held-out part returned by split_testing_set, empty if the call raised. -/
def stsHeldout (t : List Row) (seed : Option Nat) (frac : ℚ) (g0 : Nat) : List Row :=
  match split_testing_set t seed frac g0 with
  | .ok p => p.1.2
  | .error _ => []

/-- Row of a recommendation table: the bgg_user_name and bgg_id columns. -/
structure RecRow where
  bgg_user_name : Nat
  bgg_id : Nat
deriving DecidableEq, Repr

/-- Embedding of coverage: the size of the unique() array of the bgg_id column. -/
def coverage (top_n : List RecRow) : Nat :=
  (uniqueFirst (top_n.map RecRow.bgg_id)).length

/-- Row of the games metadata table: the bgg_id column plus one cell per
criterion column, addressed by column name.  A cell holds a collection of
labels, or none for a NaN cell. -/
structure GameRow where
  bgg_id : Nat
  cells : List (String × Option (List String))
deriving DecidableEq, Repr

/-- Column check performed by games_df[['bgg_id'] + criterions]: every
criterion must be a column of the games table. -/
def colsOK (games : List GameRow) (criterions : List String) : Bool :=
  criterions.all (fun c => games.all (fun gm => (gm.cells.lookup c).isSome))

/-- Left join of one recommendation row against the games table indexed by
bgg_id: no matching game yields a single row with missing attributes, and
every matching game contributes one joined row. -/
def joinRow (games : List GameRow) (r : RecRow) : List (RecRow × Option GameRow) :=
  match games.filter (fun gm => gm.bgg_id == r.bgg_id) with
  | [] => [(r, none)]
  | ms => ms.map (fun gm => (r, some gm))

/-- Criterion cell of a joined row: missing when the join found no game or the
cell of the game is NaN. -/
def cellOf (c : String) (p : RecRow × Option GameRow) : Option (List String) :=
  match p.2 with
  | none => none
  | some gm => (gm.cells.lookup c).join

/-- Per-user, per-criterion diversity: np.unique(np.hstack(...)).size over the
user's non-missing criterion cells.  np.hstack raises ValueError when the
dropna result is empty. -/
def userCritDiv (joined : List (RecRow × Option GameRow)) (c : String) (u : Nat) :
    Except String Nat :=
  let vals := (joined.filter (fun p => p.1.bgg_user_name == u)).filterMap (cellOf c)
  if vals.isEmpty then .error "need at least one array to concatenate"
  else .ok (vals.flatten.dedup).length

/-- Run a fallible computation across a list, stopping at the first error, as
a Python for loop over the list does. -/
def exceptMap {α β : Type*} (f : α → Except String β) : List α → Except String (List β)
  | [] => .ok []
  | a :: l =>
    match f a with
    | .error e => .error e
    | .ok b =>
      match exceptMap f l with
      | .error e => .error e
      | .ok bs => .ok (b :: bs)

/-- Model of np.mean on a list of counts: none stands for the NaN that NumPy
returns on an empty list. -/
def meanCounts (l : List Nat) : Option ℚ :=
  if l.isEmpty then none else some (mkRat l.sum l.length)

/-- Embedding of diversity: select the criterion columns, left-join the
recommendations to the games on bgg_id, group by user, count the distinct
labels of each user's non-missing criterion cells, and return the per-criterion
mean over users.  The source iterates users outside criterions and takes the
means afterwards; the computation below iterates criterions outside users,
which produces the same dictionary and, since every group error is the same
hstack message, the same error behaviour. -/
def diversity (top_n : List RecRow) (games : List GameRow) (criterions : List String) :
    Except String (List (String × Option ℚ)) :=
  if colsOK games criterions then
    let joined := top_n.flatMap (joinRow games)
    let users := uniqueFirst (top_n.map RecRow.bgg_user_name)
    exceptMap (fun c =>
      (exceptMap (userCritDiv joined c) users).map (fun counts => (c, meanCounts counts)))
      criterions
  else .error "KeyError"

/-- Mean diversity reported for one criterion, none if the call raised. -/
def divLookup (top_n : List RecRow) (games : List GameRow) (criterions : List String)
    (c : String) : Option (Option ℚ) :=
  match diversity top_n games criterions with
  | .ok m => m.lookup c
  | .error _ => none

/-- Specification-side label pool of one user, following the words of the
spec: across that user's recommended items, the union of the label collections
the metadata has for the criterion, items absent from the metadata and missing
values ignored. -/
def specUserLabels (top_n : List RecRow) (games : List GameRow) (c : String) (u : Nat) :
    List String :=
  (top_n.filter (fun r => r.bgg_user_name == u)).flatMap (fun r =>
    (games.filter (fun gm => gm.bgg_id == r.bgg_id)).flatMap
      (fun gm => ((gm.cells.lookup c).join).getD []))

/-- Specification-side mean diversity of a criterion, following the words of
the spec: the number of distinct labels of each user, averaged over the users
of the recommendation table. -/
def specMeanDiversity (top_n : List RecRow) (games : List GameRow) (c : String) :
    Option ℚ :=
  let users := uniqueFirst (top_n.map RecRow.bgg_user_name)
  if users.isEmpty then none
  else
    some ((users.map (fun u => ((specUserLabels top_n games c u).dedup.length : ℚ))).sum
      / (users.length : ℚ))

/-- Training table returned by split_ratings_dataset. -/
def srdTrain (t : List Row) (seed : Option Nat) (frac : ℚ) (g0 : Nat) : List Row :=
  (split_ratings_dataset t seed frac g0).1.1

/-- Testing table returned by split_ratings_dataset. -/
def srdTest (t : List Row) (seed : Option Nat) (frac : ℚ) (g0 : Nat) : List Row :=
  (split_ratings_dataset t seed frac g0).1.2

/-- C5 counterexample input: one user with a single rating row. -/
def c5Table : List Row := [⟨1, 10, 5⟩]

/-- Heap cell of the store model: one in-memory pandas or NumPy object. -/
inductive Val where
  | table (t : List Row)
  | rtable (t : List RecRow)
  | gtable (t : List GameRow)
  | arr (a : List Nat)
deriving DecidableEq, Repr

/-- Store of allocated objects; a reference is a position in the store. -/
abbrev Store := List Val

/-- Read a ratings table out of the store; a bad reference reads empty. -/
def getTable (σ : Store) (r : Nat) : List Row :=
  match σ[r]? with
  | some (.table t) => t
  | _ => []

/-- Read a recommendation table out of the store. -/
def getRTable (σ : Store) (r : Nat) : List RecRow :=
  match σ[r]? with
  | some (.rtable t) => t
  | _ => []

/-- Read a games metadata table out of the store. -/
def getGTable (σ : Store) (r : Nat) : List GameRow :=
  match σ[r]? with
  | some (.gtable t) => t
  | _ => []

/-- Store-level split_ratings_dataset.  It reads the ratings table, allocates
the fresh unique-user array that Series.unique returns, shuffles that array in
place with np.random.shuffle (the only mutating call of the file, and its
target is the fresh array, not the input), and allocates the two boolean-mask
selections as new tables.  Returns the new store, the references of the train
and test tables, and the generator state. -/
def split_ratings_dataset_st (σ : Store) (r : Nat) (seed : Option Nat) (frac : ℚ)
    (g0 : Nat) : Store × (Nat × Nat) × Nat :=
  let t := getTable σ r
  let users := uniqueFirst (t.map Row.bgg_user_name)
  let σ1 := σ ++ [Val.arr users]
  let p := drawPerm (seedState seed g0) users
  let σ2 := σ1.set σ.length (Val.arr p.1)
  let q := split_ratings_dataset t seed frac g0
  (σ2 ++ [Val.table q.1.1, Val.table q.1.2], (σ.length + 1, σ.length + 2), q.2)

/-- Store-level split_testing_set: reads the table, computes the split (iloc
selections and pd.concat allocate; nothing written), and allocates the two
result tables on success.  On the modelled exception the partial allocations
are dropped, which only strengthens what the frame theorem must show for the
success path. -/
def split_testing_set_st (σ : Store) (r : Nat) (seed : Option Nat) (frac : ℚ)
    (g0 : Nat) : Store × Option (Nat × Nat) × Nat :=
  let t := getTable σ r
  match split_testing_set t seed frac g0 with
  | .ok p => (σ ++ [Val.table p.1.1, Val.table p.1.2], some (σ.length, σ.length + 1), p.2)
  | .error _ => (σ, none, seedState seed g0)

/-- Store-level coverage: reads the table and allocates the unique() array. -/
def coverage_st (σ : Store) (r : Nat) : Store × Nat :=
  let t := getRTable σ r
  (σ ++ [Val.arr (uniqueFirst (t.map RecRow.bgg_id))], coverage t)

/-- Store-level diversity: reads both tables; the column selections, the
set_index copy and the join all allocate fresh frames (two are modelled
explicitly), and the inputs are only read. -/
def diversity_st (σ : Store) (rTop rGames : Nat) (criterions : List String) :
    Store × Except String (List (String × Option ℚ)) :=
  let top := getRTable σ rTop
  let games := getGTable σ rGames
  (σ ++ [Val.gtable games, Val.rtable top], diversity top games criterions)

section Lemmas

variable {α β : Type*}

/-- Moving the element at a valid position to the front permutes the list. -/
theorem getD_cons_eraseIdx_perm (d : α) :
    ∀ (l : List α) (j : Nat), j < l.length → (l.getD j d :: l.eraseIdx j).Perm l := by
  intro l
  induction l with
  | nil => intro j hj; simp at hj
  | cons a t ih =>
    intro j hj
    cases j with
    | zero => simp [List.getD]
    | succ j =>
      have hj' : j < t.length := by simpa using hj
      have step : (t.getD j d :: a :: t.eraseIdx j).Perm (a :: t.getD j d :: t.eraseIdx j) :=
        List.Perm.swap a (t.getD j d) (t.eraseIdx j)
      have := step.trans ((ih j hj').cons a)
      simpa [List.getD] using this

/-- Every draw of drawPermFuel is a permutation of its input. -/
theorem drawPermFuel_perm : ∀ (fuel g : Nat) (l : List α), ((drawPermFuel fuel g l).1).Perm l := by
  intro fuel
  induction fuel with
  | zero => intro g l; simp [drawPermFuel]
  | succ fuel ih =>
    intro g l
    cases l with
    | nil => simp [drawPermFuel]
    | cons a t =>
      simp only [drawPermFuel]
      have hlt : (randBelow g (a :: t).length).1 < (a :: t).length := by
        simp [randBelow]
        exact Nat.mod_lt _ (Nat.succ_pos _)
      exact ((ih _ _).cons _).trans (getD_cons_eraseIdx_perm a (a :: t) _ hlt)

/-- Model of np.random.shuffle returns a permutation of the input. -/
theorem drawPerm_perm (g : Nat) (l : List α) : ((drawPerm g l).1).Perm l :=
  drawPermFuel_perm l.length g l

/-- Membership in uniqueFirst is membership in the original list. -/
theorem mem_uniqueFirst {a : Nat} : ∀ {l : List Nat}, a ∈ uniqueFirst l ↔ a ∈ l := by
  intro l
  induction l with
  | nil => simp [uniqueFirst]
  | cons b t ih =>
    by_cases hab : a = b
    · subst hab; simp [uniqueFirst]
    · simp [uniqueFirst, hab, ih]

/-- The distinct-value array has no duplicates. -/
theorem nodup_uniqueFirst : ∀ (l : List Nat), (uniqueFirst l).Nodup := by
  intro l
  induction l with
  | nil => simp [uniqueFirst]
  | cons b t ih =>
    simp only [uniqueFirst, List.nodup_cons]
    refine ⟨?_, ih.filter _⟩
    intro hmem
    have := List.of_mem_filter hmem
    simp at this

/-- Python slicing at any cut point partitions the list. -/
theorem pySlice_append (k : Int) (l : List α) : pySliceTake k l ++ pySliceDrop k l = l := by
  by_cases h : 0 ≤ k
  · simp [pySliceTake, pySliceDrop, h, List.take_append_drop]
  · simp [pySliceTake, pySliceDrop, h, List.take_append_drop]

end Lemmas

section SplitRatings

variable (t : List Row) (seed : Option Nat) (frac : ℚ) (g0 : Nat)

/-- Shuffling the distinct users permutes the distinct users. -/
theorem shuffledUsers_perm :
    ((shuffledUsers t seed g0).1).Perm (uniqueFirst (t.map Row.bgg_user_name)) :=
  drawPerm_perm _ _

/-- The shuffled user array has no duplicates. -/
theorem shuffledUsers_nodup : ((shuffledUsers t seed g0).1).Nodup :=
  ((shuffledUsers_perm t seed g0).symm).nodup (nodup_uniqueFirst _)

/-- Every user of a row of the table appears in the shuffled user array. -/
theorem user_mem_shuffledUsers {r : Row} (hr : r ∈ t) :
    r.bgg_user_name ∈ (shuffledUsers t seed g0).1 := by
  rw [(shuffledUsers_perm t seed g0).mem_iff, mem_uniqueFirst]
  exact List.mem_map_of_mem Row.bgg_user_name hr

/-- Unfolding of split_ratings_dataset through the two cohort predicates. -/
theorem split_ratings_dataset_eq :
    split_ratings_dataset t seed frac g0 =
      ((t.filter (fun r =>
          (pySliceTake (pyTruncMul frac (shuffledUsers t seed g0).1.length)
            (shuffledUsers t seed g0).1).contains r.bgg_user_name),
        t.filter (fun r =>
          (pySliceDrop (pyTruncMul frac (shuffledUsers t seed g0).1.length)
            (shuffledUsers t seed g0).1).contains r.bgg_user_name)),
       (shuffledUsers t seed g0).2) := rfl

end SplitRatings

/-- C1: for a fraction strictly between 0 and 1 (in fact for any fraction),
split_ratings_dataset partitions: the user sets of train and test are
disjoint, their union is the user set of the input, and the row multisets of
train and test add up to the row multiset of the input, every row carried
whole. -/
theorem c1_split_ratings_partition (t : List Row) (seed : Option Nat) (frac : ℚ) (g0 : Nat)
    (_hf0 : 0 < frac) (_hf1 : frac < 1) :
    ((srdTrain t seed frac g0).map Row.bgg_user_name).toFinset ∩
        ((srdTest t seed frac g0).map Row.bgg_user_name).toFinset = ∅ ∧
    ((srdTrain t seed frac g0).map Row.bgg_user_name).toFinset ∪
        ((srdTest t seed frac g0).map Row.bgg_user_name).toFinset =
        (t.map Row.bgg_user_name).toFinset ∧
    ((srdTrain t seed frac g0 : Multiset Row) + (srdTest t seed frac g0 : Multiset Row)
        = (t : Multiset Row)) := by
  have hTrain : srdTrain t seed frac g0 = t.filter (fun r =>
      (pySliceTake (pyTruncMul frac (shuffledUsers t seed g0).1.length)
        (shuffledUsers t seed g0).1).contains r.bgg_user_name) := rfl
  have hTest : srdTest t seed frac g0 = t.filter (fun r =>
      (pySliceDrop (pyTruncMul frac (shuffledUsers t seed g0).1.length)
        (shuffledUsers t seed g0).1).contains r.bgg_user_name) := rfl
  set us := (shuffledUsers t seed g0).1 with hus
  set k := pyTruncMul frac us.length with hk
  set TU := pySliceTake k us with hTU
  set TE := pySliceDrop k us with hTE
  have happ : TU ++ TE = us := pySlice_append k us
  have hndapp : (TU ++ TE).Nodup := by
    rw [happ]; exact shuffledUsers_nodup t seed g0
  obtain ⟨hndTU, hndTE, hdisj⟩ := List.nodup_append.mp hndapp
  have hmem : ∀ r ∈ t, r.bgg_user_name ∈ TU ++ TE := by
    intro r hr; rw [happ]; exact user_mem_shuffledUsers t seed g0 hr
  refine ⟨?_, ?_, ?_⟩
  · ext u
    simp only [Finset.mem_inter, List.mem_toFinset, List.mem_map, Finset.not_mem_empty,
      iff_false, not_and, hTrain, hTest]
    rintro ⟨r1, hr1, hu1⟩ ⟨r2, hr2, hu2⟩
    rw [List.mem_filter] at hr1 hr2
    have m1 : r1.bgg_user_name ∈ TU := by simpa using hr1.2
    have m2 : r2.bgg_user_name ∈ TE := by simpa using hr2.2
    exact hdisj m1 (by rw [hu2, ← hu1] at m2; exact m2)
  · ext u
    simp only [Finset.mem_union, List.mem_toFinset, List.mem_map, hTrain, hTest]
    constructor
    · rintro (⟨r, hr, hu⟩ | ⟨r, hr, hu⟩) <;>
        exact ⟨r, (List.mem_filter.mp hr).1, hu⟩
    · rintro ⟨r, hr, hu⟩
      rcases List.mem_append.mp (hmem r hr) with hTUm | hTEm
      · exact Or.inl ⟨r, List.mem_filter.mpr ⟨hr, by simpa using hTUm⟩, hu⟩
      · exact Or.inr ⟨r, List.mem_filter.mpr ⟨hr, by simpa using hTEm⟩, hu⟩
  · have hcongr : t.filter (fun r => TE.contains r.bgg_user_name) =
        t.filter (fun r => !(TU.contains r.bgg_user_name)) := by
      apply List.filter_congr
      intro r hr
      by_cases h : r.bgg_user_name ∈ TU
      · have h2 : r.bgg_user_name ∉ TE := fun hc => hdisj h hc
        simp [h, h2]
      · have h2 : r.bgg_user_name ∈ TE := by
          rcases List.mem_append.mp (hmem r hr) with hTUm | hTEm
          · exact absurd hTUm h
          · exact hTEm
        simp [h, h2]
    rw [hTrain, hTest, hcongr, Multiset.coe_add]
    exact Multiset.coe_eq_coe.mpr (List.filter_append_perm _ t)

/-- C1 witness at a concrete table, seed and fraction. -/
theorem c1_witness :
    ((0 : ℚ) < mkRat 7 10 ∧ mkRat 7 10 < 1) ∧
    (((srdTrain [⟨1, 10, 5⟩, ⟨1, 11, 4⟩, ⟨2, 10, 3⟩, ⟨3, 12, 2⟩] (some 1) (mkRat 7 10) 0).map
          Row.bgg_user_name).toFinset ∩
        ((srdTest [⟨1, 10, 5⟩, ⟨1, 11, 4⟩, ⟨2, 10, 3⟩, ⟨3, 12, 2⟩] (some 1) (mkRat 7 10) 0).map
          Row.bgg_user_name).toFinset = ∅ ∧
      ((srdTrain [⟨1, 10, 5⟩, ⟨1, 11, 4⟩, ⟨2, 10, 3⟩, ⟨3, 12, 2⟩] (some 1) (mkRat 7 10) 0).map
          Row.bgg_user_name).toFinset ∪
        ((srdTest [⟨1, 10, 5⟩, ⟨1, 11, 4⟩, ⟨2, 10, 3⟩, ⟨3, 12, 2⟩] (some 1) (mkRat 7 10) 0).map
          Row.bgg_user_name).toFinset =
        (([⟨1, 10, 5⟩, ⟨1, 11, 4⟩, ⟨2, 10, 3⟩, ⟨3, 12, 2⟩] : List Row).map
          Row.bgg_user_name).toFinset ∧
      ((srdTrain [⟨1, 10, 5⟩, ⟨1, 11, 4⟩, ⟨2, 10, 3⟩, ⟨3, 12, 2⟩] (some 1) (mkRat 7 10) 0 :
          Multiset Row) +
        (srdTest [⟨1, 10, 5⟩, ⟨1, 11, 4⟩, ⟨2, 10, 3⟩, ⟨3, 12, 2⟩] (some 1) (mkRat 7 10) 0 :
          Multiset Row) =
        (([⟨1, 10, 5⟩, ⟨1, 11, 4⟩, ⟨2, 10, 3⟩, ⟨3, 12, 2⟩] : List Row) : Multiset Row))) :=
  ⟨⟨by decide, by decide⟩,
    c1_split_ratings_partition [⟨1, 10, 5⟩, ⟨1, 11, 4⟩, ⟨2, 10, 3⟩, ⟨3, 12, 2⟩] (some 1)
      (mkRat 7 10) 0 (by decide) (by decide)⟩

/-- Truncation towards zero agrees with floor division on a nonnegative fraction. -/
theorem pyTruncMul_eq_ratFloorMul (frac : ℚ) (n : Nat) (hf : 0 ≤ frac) :
    pyTruncMul frac n = ratFloorMul frac n := by
  have hnum : 0 ≤ frac.num := Rat.num_nonneg.mpr hf
  have ha : 0 ≤ frac.num * (n : Int) := mul_nonneg hnum (Int.ofNat_nonneg n)
  have hb : (0 : Int) ≤ (frac.den : Int) := Int.ofNat_nonneg _
  unfold pyTruncMul ratFloorMul
  rw [Int.tdiv_eq_ediv ha hb, Int.fdiv_eq_ediv _ hb]

/-- Numerator-level floor division computes the floor of frac * n. -/
theorem ratFloorMul_eq_floor (frac : ℚ) (n : Nat) :
    ratFloorMul frac n = ⌊frac * (n : ℚ)⌋ := by
  have h1 : frac * (n : ℚ) = ((frac.num * n : ℤ) : ℚ) / ((frac.den : ℕ) : ℚ) := by
    conv_lhs => rw [← Rat.num_div_den frac]
    push_cast
    ring
  rw [h1, Rat.floor_intCast_div_natCast]
  exact Int.fdiv_eq_ediv _ (Int.ofNat_nonneg _)

/-- C8: for a nonnegative fraction the training cohort is exactly the first
floor(frac * user count) entries of the shuffled distinct-user array and the
test cohort the remaining entries; with a single distinct user one of the two
returned tables is empty. -/
theorem c8_cohort_cut (t : List Row) (seed : Option Nat) (frac : ℚ) (g0 : Nat)
    (hf : 0 ≤ frac) :
    srdTrain t seed frac g0 = t.filter (fun r =>
        ((shuffledUsers t seed g0).1.take
          (ratFloorMul frac (shuffledUsers t seed g0).1.length).toNat).contains
          r.bgg_user_name) ∧
    srdTest t seed frac g0 = t.filter (fun r =>
        ((shuffledUsers t seed g0).1.drop
          (ratFloorMul frac (shuffledUsers t seed g0).1.length).toNat).contains
          r.bgg_user_name) ∧
    ratFloorMul frac (shuffledUsers t seed g0).1.length =
      ⌊frac * ((shuffledUsers t seed g0).1.length : ℚ)⌋ ∧
    ((uniqueFirst (t.map Row.bgg_user_name)).length = 1 →
      srdTrain t seed frac g0 = [] ∨ srdTest t seed frac g0 = []) := by
  set us := (shuffledUsers t seed g0).1 with hus
  have hk : pyTruncMul frac us.length = ratFloorMul frac us.length :=
    pyTruncMul_eq_ratFloorMul frac us.length hf
  have hknn : 0 ≤ ratFloorMul frac us.length := by
    unfold ratFloorMul
    exact Int.fdiv_nonneg
      (mul_nonneg (Rat.num_nonneg.mpr hf) (Int.ofNat_nonneg _)) (Int.ofNat_nonneg _)
  have hTU : pySliceTake (pyTruncMul frac us.length) us =
      us.take (ratFloorMul frac us.length).toNat := by
    rw [hk]; simp [pySliceTake, hknn]
  have hTE : pySliceDrop (pyTruncMul frac us.length) us =
      us.drop (ratFloorMul frac us.length).toNat := by
    rw [hk]; simp [pySliceDrop, hknn]
  have hTrain : srdTrain t seed frac g0 = t.filter (fun r =>
      (us.take (ratFloorMul frac us.length).toNat).contains r.bgg_user_name) := by
    show t.filter (fun r =>
      (pySliceTake (pyTruncMul frac us.length) us).contains r.bgg_user_name) = _
    rw [hTU]
  have hTest : srdTest t seed frac g0 = t.filter (fun r =>
      (us.drop (ratFloorMul frac us.length).toNat).contains r.bgg_user_name) := by
    show t.filter (fun r =>
      (pySliceDrop (pyTruncMul frac us.length) us).contains r.bgg_user_name) = _
    rw [hTE]
  refine ⟨hTrain, hTest, ratFloorMul_eq_floor frac us.length, ?_⟩
  intro h1
  have hlen : us.length = 1 := by
    rw [hus, (shuffledUsers_perm t seed g0).length_eq]
    exact h1
  rcases Nat.eq_zero_or_pos (ratFloorMul frac us.length).toNat with h0 | hpos
  · left
    rw [hTrain, h0]
    simp
  · right
    rw [hTest]
    have : us.drop (ratFloorMul frac us.length).toNat = [] :=
      List.drop_eq_nil_of_le (by omega)
    rw [this]
    simp

/-- C8 witness at a concrete table, seed and fraction. -/
theorem c8_witness :
    ((0 : ℚ) ≤ mkRat 7 10) ∧
    (srdTrain [⟨1, 10, 5⟩, ⟨2, 10, 3⟩, ⟨3, 12, 2⟩] (some 2) (mkRat 7 10) 0 =
        ([⟨1, 10, 5⟩, ⟨2, 10, 3⟩, ⟨3, 12, 2⟩] : List Row).filter (fun r =>
          ((shuffledUsers [⟨1, 10, 5⟩, ⟨2, 10, 3⟩, ⟨3, 12, 2⟩] (some 2) 0).1.take
            (ratFloorMul (mkRat 7 10)
              (shuffledUsers [⟨1, 10, 5⟩, ⟨2, 10, 3⟩, ⟨3, 12, 2⟩] (some 2) 0).1.length).toNat).contains
            r.bgg_user_name) ∧
      srdTest [⟨1, 10, 5⟩, ⟨2, 10, 3⟩, ⟨3, 12, 2⟩] (some 2) (mkRat 7 10) 0 =
        ([⟨1, 10, 5⟩, ⟨2, 10, 3⟩, ⟨3, 12, 2⟩] : List Row).filter (fun r =>
          ((shuffledUsers [⟨1, 10, 5⟩, ⟨2, 10, 3⟩, ⟨3, 12, 2⟩] (some 2) 0).1.drop
            (ratFloorMul (mkRat 7 10)
              (shuffledUsers [⟨1, 10, 5⟩, ⟨2, 10, 3⟩, ⟨3, 12, 2⟩] (some 2) 0).1.length).toNat).contains
            r.bgg_user_name) ∧
      ratFloorMul (mkRat 7 10)
          (shuffledUsers [⟨1, 10, 5⟩, ⟨2, 10, 3⟩, ⟨3, 12, 2⟩] (some 2) 0).1.length =
        ⌊mkRat 7 10 *
          ((shuffledUsers [⟨1, 10, 5⟩, ⟨2, 10, 3⟩, ⟨3, 12, 2⟩] (some 2) 0).1.length : ℚ)⌋ ∧
      ((uniqueFirst (([⟨1, 10, 5⟩, ⟨2, 10, 3⟩, ⟨3, 12, 2⟩] : List Row).map
            Row.bgg_user_name)).length = 1 →
        srdTrain [⟨1, 10, 5⟩, ⟨2, 10, 3⟩, ⟨3, 12, 2⟩] (some 2) (mkRat 7 10) 0 = [] ∨
        srdTest [⟨1, 10, 5⟩, ⟨2, 10, 3⟩, ⟨3, 12, 2⟩] (some 2) (mkRat 7 10) 0 = [])) :=
  ⟨by decide,
    c8_cohort_cut [⟨1, 10, 5⟩, ⟨2, 10, 3⟩, ⟨3, 12, 2⟩] (some 2) (mkRat 7 10) 0 (by decide)⟩

section SplitTesting

/-- Selecting every position of a list in order returns the list. -/
theorem range_filterMap_getElem {α : Type*} :
    ∀ (l : List α), (List.range l.length).filterMap (fun i => l[i]?) = l := by
  intro l
  induction l with
  | nil => simp
  | cons a t ih =>
    rw [List.length_cons, List.range_succ_eq_map, List.filterMap_cons, List.filterMap_map]
    have hcomp : ((fun i => (a :: t)[i]?) ∘ Nat.succ) = (fun i => t[i]?) := by
      funext i
      simp
    simp only [List.getElem?_cons_zero, hcomp]
    rw [ih]

/-- Rows selected by position come from the table. -/
theorem mem_of_mem_filterMap_getElem {α : Type*} (l : List α) (idxs : List Nat) {r : α}
    (h : r ∈ idxs.filterMap (fun i => l[i]?)) : r ∈ l := by
  rcases List.mem_filterMap.mp h with ⟨i, _, hsome⟩
  rcases List.getElem?_eq_some_iff.mp hsome with ⟨hlt, hget⟩
  exact hget ▸ List.getElem_mem hlt

/-- Selecting valid positions selects one row per position. -/
theorem length_filterMap_getElem {α : Type*} (l : List α) :
    ∀ (idxs : List Nat), (∀ i ∈ idxs, i < l.length) →
      (idxs.filterMap (fun i => l[i]?)).length = idxs.length := by
  intro idxs
  induction idxs with
  | nil => simp
  | cons i is ih =>
    intro h
    have hi : i < l.length := h i (List.mem_cons_self i is)
    rw [List.filterMap_cons, List.getElem?_eq_getElem hi]
    simp [ih (fun j hj => h j (List.mem_cons_of_mem i hj))]

/-- Model of np.random.choice(n, k, replace=False) for k at most n: the drawn
positions are distinct, below n, and exactly k many. -/
theorem npChoice_spec (g n k : Nat) (hk : k ≤ n) :
    (npChoice g n k).1.Nodup ∧ (∀ i ∈ (npChoice g n k).1, i < n) ∧
      (npChoice g n k).1.length = k := by
  have hperm := drawPerm_perm g (List.range n)
  have hnd : (drawPerm g (List.range n)).1.Nodup := hperm.symm.nodup (List.nodup_range n)
  refine ⟨?_, ?_, ?_⟩
  · exact ((drawPerm g (List.range n)).1.take_sublist k).nodup hnd
  · intro i hi
    exact List.mem_range.mp (hperm.mem_iff.mp (List.mem_of_mem_take hi))
  · show ((drawPerm g (List.range n)).1.take k).length = k
    rw [List.length_take, hperm.length_eq, List.length_range]
    exact min_eq_left hk

/-- Selected positions and the complementary positions together select a
permutation of the group. -/
theorem choiceSplit_perm (df : List Row) (idxs : List Nat) (hnd : idxs.Nodup)
    (hlt : ∀ i ∈ idxs, i < df.length) :
    ((idxs.filterMap (fun i => df[i]?)) ++
      (((List.range df.length).filter (fun i => !(idxs.contains i))).filterMap
        (fun i => df[i]?))).Perm df := by
  set B := (List.range df.length).filter (fun i => !(idxs.contains i)) with hB
  have hndB : B.Nodup := (List.nodup_range df.length).filter _
  have hdisj : idxs.Disjoint B := by
    intro a ha haB
    have := List.of_mem_filter haB
    simp only [Bool.not_eq_true'] at this
    rw [hB] at haB
    have hnotm : a ∉ idxs := by simpa using this
    exact hnotm ha
  have hndAB : (idxs ++ B).Nodup := List.nodup_append.mpr ⟨hnd, hndB, hdisj⟩
  have hmemiff : ∀ x, x ∈ idxs ++ B ↔ x ∈ List.range df.length := by
    intro x
    constructor
    · intro hx
      rcases List.mem_append.mp hx with h | h
      · exact List.mem_range.mpr (hlt x h)
      · exact (List.mem_filter.mp h).1
    · intro hx
      by_cases hxi : x ∈ idxs
      · exact List.mem_append.mpr (Or.inl hxi)
      · refine List.mem_append.mpr (Or.inr (List.mem_filter.mpr ⟨hx, ?_⟩))
        simp [hxi]
  have hperm : (idxs ++ B).Perm (List.range df.length) :=
    (List.perm_ext_iff_of_nodup hndAB (List.nodup_range df.length)).mpr hmemiff
  have hfm := hperm.filterMap (fun i => df[i]?)
  rw [List.filterMap_append, range_filterMap_getElem df] at hfm
  exact hfm

/-- Main invariant of the split_testing_set loop: on success, for every user of
the processed list the known and held-out rows of that user add up exactly to
that user's rows of the table, and the known rows number round(frac * group
size); users outside the processed list receive no rows. -/
theorem stsUsers_spec (t : List Row) (frac : ℚ) :
    ∀ (us : List Nat) (g : Nat) (K H : List Row) (g2 : Nat),
      stsUsers t frac g us = .ok (K, H, g2) → us.Nodup →
      ((∀ u ∈ us,
        (((K.filter (fun r => r.bgg_user_name == u)) : Multiset Row) +
          ((H.filter (fun r => r.bgg_user_name == u)) : Multiset Row) =
          ((t.filter (fun r => r.bgg_user_name == u)) : Multiset Row)) ∧
        (K.filter (fun r => r.bgg_user_name == u)).length =
          (roundHalfEvenMul frac (t.filter (fun r => r.bgg_user_name == u)).length).toNat) ∧
      (∀ u, u ∉ us → K.filter (fun r => r.bgg_user_name == u) = [] ∧
        H.filter (fun r => r.bgg_user_name == u) = [])) := by
  intro us
  induction us with
  | nil =>
    intro g K H g2 hok _
    have hK : K = [] ∧ H = [] := by
      simp only [stsUsers, Except.ok.injEq, Prod.mk.injEq] at hok
      exact ⟨hok.1.symm, hok.2.1.symm⟩
    refine ⟨by simp, ?_⟩
    intro u _
    rw [hK.1, hK.2]
    simp
  | cons u us ih =>
    intro g K H g2 hok hnd
    rw [List.nodup_cons] at hnd
    obtain ⟨hu_notin, hndus⟩ := hnd
    simp only [stsUsers] at hok
    set df := t.filter (fun r => r.bgg_user_name == u) with hdf
    by_cases hneg : roundHalfEvenMul frac df.length < 0
    · rw [if_pos hneg] at hok
      cases hok
    · rw [if_neg hneg] at hok
      by_cases hbig : df.length < (roundHalfEvenMul frac df.length).toNat
      · rw [if_pos hbig] at hok
        cases hok
      · rw [if_neg hbig] at hok
        set k := (roundHalfEvenMul frac df.length).toNat with hkdef
        set c := npChoice g df.length k with hc
        set known := c.1.filterMap (fun i => df[i]?) with hknown
        set unknown := ((List.range df.length).filter
          (fun i => !(c.1.contains i))).filterMap (fun i => df[i]?) with hunknown
        cases hrec : stsUsers t frac c.2 us with
        | error e =>
          rw [hrec] at hok
          cases hok
        | ok trip =>
          obtain ⟨ks, hs, g3⟩ := trip
          rw [hrec] at hok
          have hKeq : K = known ++ ks ∧ H = unknown ++ hs := by
            simp only [Except.ok.injEq, Prod.mk.injEq] at hok
            exact ⟨hok.1.symm, hok.2.1.symm⟩
          obtain ⟨hmain, hout⟩ := ih c.2 ks hs g3 hrec hndus
          have hkn : k ≤ df.length := le_of_not_lt hbig
          obtain ⟨hcnd, hclt, hclen⟩ := npChoice_spec g df.length k hkn
          have hksub : ∀ r ∈ known, r ∈ df := fun r hr =>
            mem_of_mem_filterMap_getElem df c.1 hr
          have husub : ∀ r ∈ unknown, r ∈ df := fun r hr =>
            mem_of_mem_filterMap_getElem df _ hr
          have husr : ∀ r ∈ df, r.bgg_user_name = u := by
            intro r hr
            have := (List.mem_filter.mp hr).2
            simpa using this
          have hgperm : (known ++ unknown).Perm df := choiceSplit_perm df c.1 hcnd hclt
          refine ⟨?_, ?_⟩
          · intro v hv
            rcases List.mem_cons.mp hv with hveq | hvmem
            · subst hveq
              have hkf : known.filter (fun r => r.bgg_user_name == v) = known :=
                List.filter_eq_self.mpr (fun r hr => by simp [husr r (hksub r hr)])
              have huf : unknown.filter (fun r => r.bgg_user_name == v) = unknown :=
                List.filter_eq_self.mpr (fun r hr => by simp [husr r (husub r hr)])
              have hknil := (hout v hu_notin).1
              have hhnil := (hout v hu_notin).2
              rw [hKeq.1, hKeq.2, List.filter_append, List.filter_append,
                hkf, huf, hknil, hhnil, List.append_nil, List.append_nil]
              constructor
              · rw [← hdf, Multiset.coe_add]
                exact Multiset.coe_eq_coe.mpr hgperm
              · rw [← hdf, ← hkdef]
                rw [hknown, length_filterMap_getElem df c.1 hclt, hclen]
            · have hvne : v ≠ u := fun hvu => hu_notin (hvu ▸ hvmem)
              have hkf : known.filter (fun r => r.bgg_user_name == v) = [] :=
                List.filter_eq_nil_iff.mpr (fun r hr => by
                  simp [husr r (hksub r hr), Ne.symm hvne])
              have huf : unknown.filter (fun r => r.bgg_user_name == v) = [] :=
                List.filter_eq_nil_iff.mpr (fun r hr => by
                  simp [husr r (husub r hr), Ne.symm hvne])
              rw [hKeq.1, hKeq.2, List.filter_append, List.filter_append, hkf, huf,
                List.nil_append, List.nil_append]
              exact hmain v hvmem
          · intro v hv
            have hvne : v ≠ u := fun hvu => hv (by rw [hvu]; exact List.mem_cons_self u us)
            have hvus : v ∉ us := fun hvm => hv (List.mem_cons_of_mem u hvm)
            have hkf : known.filter (fun r => r.bgg_user_name == v) = [] :=
              List.filter_eq_nil_iff.mpr (fun r hr => by
                simp [husr r (hksub r hr), Ne.symm hvne])
            have huf : unknown.filter (fun r => r.bgg_user_name == v) = [] :=
              List.filter_eq_nil_iff.mpr (fun r hr => by
                simp [husr r (husub r hr), Ne.symm hvne])
            rw [hKeq.1, hKeq.2, List.filter_append, List.filter_append, hkf, huf,
              List.nil_append, List.nil_append]
            exact hout v hvus

/-- Unpacking of a successful split_testing_set call into the loop invariant. -/
theorem split_testing_set_ok (t : List Row) (seed : Option Nat) (frac : ℚ) (g0 : Nat)
    (h : exOk (split_testing_set t seed frac g0) = true) :
    ∃ g2, stsUsers t frac (seedState seed g0) (uniqueFirst (t.map Row.bgg_user_name)) =
        .ok (stsKnown t seed frac g0, stsHeldout t seed frac g0, g2) := by
  by_cases hemp : (uniqueFirst (t.map Row.bgg_user_name)).isEmpty
  · exfalso
    have hsp : split_testing_set t seed frac g0 = .error "No objects to concatenate" := by
      simp only [split_testing_set]
      rw [if_pos hemp]
    rw [hsp] at h
    simp [exOk] at h
  · cases hsts : stsUsers t frac (seedState seed g0)
        (uniqueFirst (t.map Row.bgg_user_name)) with
    | error e =>
      exfalso
      have hsp : split_testing_set t seed frac g0 = .error e := by
        simp only [split_testing_set]
        rw [if_neg hemp, hsts]
      rw [hsp] at h
      simp [exOk] at h
    | ok trip =>
      obtain ⟨K, H, g2⟩ := trip
      have hsp : split_testing_set t seed frac g0 = .ok ((K, H), g2) := by
        simp only [split_testing_set]
        rw [if_neg hemp, hsts]
      have h1 : stsKnown t seed frac g0 = K := by
        unfold stsKnown
        rw [hsp]
      have h2 : stsHeldout t seed frac g0 = H := by
        unfold stsHeldout
        rw [hsp]
      exact ⟨g2, by rw [h1, h2]⟩

/-- Users absent from the distinct-user list have no rows in the table. -/
theorem filter_eq_nil_of_not_mem_users (t : List Row) (u : Nat)
    (hu : u ∉ uniqueFirst (t.map Row.bgg_user_name)) :
    t.filter (fun r => r.bgg_user_name == u) = [] := by
  rw [List.filter_eq_nil_iff]
  intro r hr hbeq
  apply hu
  rw [mem_uniqueFirst]
  have : r.bgg_user_name = u := by simpa using hbeq
  exact this ▸ List.mem_map_of_mem Row.bgg_user_name hr

end SplitTesting

/-- C2: whenever split_testing_set returns, then for every user the row
multisets of that user's known rows and held-out rows add up exactly to that
user's rows of the input table: nothing lost, nothing duplicated, no row in
both outputs. -/
theorem c2_per_user_reconstruction (t : List Row) (seed : Option Nat) (frac : ℚ) (g0 : Nat)
    (h : exOk (split_testing_set t seed frac g0) = true) (u : Nat) :
    (((stsKnown t seed frac g0).filter (fun r => r.bgg_user_name == u)) : Multiset Row) +
      (((stsHeldout t seed frac g0).filter (fun r => r.bgg_user_name == u)) : Multiset Row) =
      ((t.filter (fun r => r.bgg_user_name == u)) : Multiset Row) := by
  obtain ⟨g2, hsts⟩ := split_testing_set_ok t seed frac g0 h
  have hspec := stsUsers_spec t frac (uniqueFirst (t.map Row.bgg_user_name))
    (seedState seed g0) (stsKnown t seed frac g0) (stsHeldout t seed frac g0) g2 hsts
    (nodup_uniqueFirst _)
  by_cases hu : u ∈ uniqueFirst (t.map Row.bgg_user_name)
  · exact (hspec.1 u hu).1
  · obtain ⟨hK, hH⟩ := hspec.2 u hu
    rw [hK, hH, filter_eq_nil_of_not_mem_users t u hu]
    simp

/-- C2 witness at a concrete table, seed and fraction. -/
theorem c2_witness :
    exOk (split_testing_set [⟨1, 10, 5⟩, ⟨1, 11, 4⟩, ⟨2, 10, 3⟩] (some 0) (mkRat 4 5) 0)
        = true ∧
    (((stsKnown [⟨1, 10, 5⟩, ⟨1, 11, 4⟩, ⟨2, 10, 3⟩] (some 0) (mkRat 4 5) 0).filter
        (fun r => r.bgg_user_name == 1)) : Multiset Row) +
      (((stsHeldout [⟨1, 10, 5⟩, ⟨1, 11, 4⟩, ⟨2, 10, 3⟩] (some 0) (mkRat 4 5) 0).filter
        (fun r => r.bgg_user_name == 1)) : Multiset Row) =
      ((([⟨1, 10, 5⟩, ⟨1, 11, 4⟩, ⟨2, 10, 3⟩] : List Row).filter
        (fun r => r.bgg_user_name == 1)) : Multiset Row) :=
  ⟨by decide,
    c2_per_user_reconstruction [⟨1, 10, 5⟩, ⟨1, 11, 4⟩, ⟨2, 10, 3⟩] (some 0) (mkRat 4 5) 0
      (by decide) 1⟩

/-- Rounding a fraction times zero gives zero. -/
theorem roundHalfEvenMul_zero (frac : ℚ) : roundHalfEvenMul frac 0 = 0 := by
  have hden : (0 : Int) < (frac.den : Int) := by
    exact_mod_cast frac.pos
  unfold roundHalfEvenMul
  simp [Int.zero_fdiv, hden]

/-- C5 counterexample: at frac = 1/2 (which satisfies the claim's premise
frac ≥ 0.5) a user with a single rating row gets an empty known split and the
row lands in held-out, because Python 3 round is round-half-to-even and
round(0.5) = 0, contradicting the claimed round(frac * 1) = 1. -/
theorem c5_counterexample :
    mkRat 1 2 = (1 : ℚ) / 2 ∧
    exOk (split_testing_set c5Table (some 0) (mkRat 1 2) 0) = true ∧
    stsKnown c5Table (some 0) (mkRat 1 2) 0 = [] ∧
    stsHeldout c5Table (some 0) (mkRat 1 2) 0 = [⟨1, 10, 5⟩] := by
  refine ⟨?_, by decide, by decide, by decide⟩
  rw [Rat.mkRat_eq_div]
  norm_num

/-- C5 as amended: whenever split_testing_set returns, every user's known
split has exactly round(frac * row count) rows, where round is Python 3's
round-half-to-even; in particular a single-row user has its row in the known
split exactly when round-half-even of frac is 1, which holds for
0.5 < frac ≤ 1 but fails at frac = 0.5. -/
theorem c5_amended_known_count (t : List Row) (seed : Option Nat) (frac : ℚ) (g0 : Nat)
    (h : exOk (split_testing_set t seed frac g0) = true) (u : Nat) :
    ((stsKnown t seed frac g0).filter (fun r => r.bgg_user_name == u)).length =
      (roundHalfEvenMul frac ((t.filter (fun r => r.bgg_user_name == u)).length)).toNat := by
  obtain ⟨g2, hsts⟩ := split_testing_set_ok t seed frac g0 h
  have hspec := stsUsers_spec t frac (uniqueFirst (t.map Row.bgg_user_name))
    (seedState seed g0) (stsKnown t seed frac g0) (stsHeldout t seed frac g0) g2 hsts
    (nodup_uniqueFirst _)
  by_cases hu : u ∈ uniqueFirst (t.map Row.bgg_user_name)
  · exact (hspec.1 u hu).2
  · obtain ⟨hK, _⟩ := hspec.2 u hu
    rw [hK, filter_eq_nil_of_not_mem_users t u hu]
    simp [roundHalfEvenMul_zero]

/-- C5 amended witness: with frac = 3/4 a single-row user keeps its row in the
known split, and the count matches round-half-even(3/4 * 1) = 1. -/
theorem c5_amended_witness :
    exOk (split_testing_set [⟨1, 10, 5⟩, ⟨2, 11, 4⟩] (some 3) (mkRat 3 4) 0) = true ∧
    ((stsKnown [⟨1, 10, 5⟩, ⟨2, 11, 4⟩] (some 3) (mkRat 3 4) 0).filter
        (fun r => r.bgg_user_name == 1)).length =
      (roundHalfEvenMul (mkRat 3 4)
        ((([⟨1, 10, 5⟩, ⟨2, 11, 4⟩] : List Row).filter
          (fun r => r.bgg_user_name == 1)).length)).toNat :=
  ⟨by decide,
    c5_amended_known_count [⟨1, 10, 5⟩, ⟨2, 11, 4⟩] (some 3) (mkRat 3 4) 0 (by decide) 1⟩

/-- C7: with the same explicit seed, two runs of split_ratings_dataset are
identical and two runs of split_testing_set are identical, whatever the
incoming global generator states of the two runs are, because np.random.seed
overwrites the global state with a function of the seed alone. -/
theorem c7_seeded_runs_deterministic (t u : List Row) (s : Nat) (frac : ℚ) (g1 g2 : Nat) :
    split_ratings_dataset t (some s) frac g1 = split_ratings_dataset t (some s) frac g2 ∧
    split_testing_set u (some s) frac g1 = split_testing_set u (some s) frac g2 :=
  ⟨rfl, rfl⟩

/-- C10: on a table with no rows there are no groupby groups, so
split_testing_set concatenates an empty list of frames and pd.concat raises
ValueError instead of returning two empty tables. -/
theorem c10_empty_input_raises (seed : Option Nat) (frac : ℚ) (g0 : Nat) :
    split_testing_set [] seed frac g0 = .error "No objects to concatenate" := rfl

section Diversity

variable {α β γ : Type*}

/-- Success of the modelled loop gives pointwise success. -/
theorem exceptMap_forall2 {f : α → Except String β} :
    ∀ {l : List α} {r : List β}, exceptMap f l = .ok r →
      List.Forall₂ (fun a b => f a = .ok b) l r := by
  intro l
  induction l with
  | nil =>
    intro r h
    simp only [exceptMap, Except.ok.injEq] at h
    rw [← h]
    exact List.Forall₂.nil
  | cons a t ih =>
    intro r h
    rw [exceptMap] at h
    cases hfa : f a with
    | error e => rw [hfa] at h; cases h
    | ok b =>
      rw [hfa] at h
      cases hrec : exceptMap f t with
      | error e => rw [hrec] at h; cases h
      | ok bs =>
        rw [hrec] at h
        simp only [Except.ok.injEq] at h
        rw [← h]
        exact List.Forall₂.cons hfa (ih hrec)

/-- Success of the modelled loop gives success at every element. -/
theorem exceptMap_ok_of_mem {f : α → Except String β} :
    ∀ {l : List α} {r : List β}, exceptMap f l = .ok r → ∀ a ∈ l, ∃ b, f a = .ok b := by
  intro l
  induction l with
  | nil =>
    intro r _ a ha
    cases ha
  | cons x t ih =>
    intro r h a ha
    rw [exceptMap] at h
    cases hfx : f x with
    | error e => rw [hfx] at h; cases h
    | ok b =>
      rw [hfx] at h
      cases hrec : exceptMap f t with
      | error e => rw [hrec] at h; cases h
      | ok bs =>
        rcases List.mem_cons.mp ha with rfl | hmem
        · exact ⟨b, hfx⟩
        · exact ih hrec a hmem

/-- Pointwise-functional success computes the map of the body. -/
theorem forall2_ok_eq_map {f : α → Except String β} {gfun : α → β} :
    ∀ {l : List α} {r : List β},
      List.Forall₂ (fun a b => f a = .ok b) l r →
      (∀ a, ∀ b, f a = .ok b → b = gfun a) → r = l.map gfun := by
  intro l r h hg
  induction h with
  | nil => rfl
  | cons hfa _ ih =>
    rw [List.map_cons, ← ih, hg _ _ hfa]

/-- Keyed pairs produced in list order are found by lookup. -/
theorem lookup_of_forall2 {val : String → β} :
    ∀ {cs : List String} {m : List (String × β)},
      List.Forall₂ (fun c p => p = (c, val c)) cs m →
      ∀ c ∈ cs, m.lookup c = some (val c) := by
  intro cs m h
  induction h with
  | nil => intro c hc; cases hc
  | @cons c0 p0 cs0 m0 hp0 _ ih =>
    intro c hc
    rw [hp0]
    by_cases hceq : c = c0
    · subst hceq
      simp [List.lookup]
    · have hbeq : (c == c0) = false := beq_eq_false_iff_ne.mpr hceq
      rcases List.mem_cons.mp hc with rfl | hmem
      · exact absurd rfl hceq
      · simp only [List.lookup, hbeq]
        exact ih c hmem

/-- Every joined row produced for a recommendation row carries that row. -/
theorem joinRow_fst (games : List GameRow) (r : RecRow) :
    ∀ p ∈ joinRow games r, p.1 = r := by
  intro p hp
  unfold joinRow at hp
  cases hmatch : games.filter (fun gm => gm.bgg_id == r.bgg_id) with
  | nil =>
    rw [hmatch] at hp
    simp only [List.mem_singleton] at hp
    rw [hp]
  | cons g gs =>
    rw [hmatch] at hp
    simp only [List.mem_map] at hp
    obtain ⟨gm, _, hgm⟩ := hp
    rw [← hgm]

/-- Filtering the joined table by user is joining the user's rows. -/
theorem joined_filter_user (top_n : List RecRow) (games : List GameRow) (u : Nat) :
    (top_n.flatMap (joinRow games)).filter (fun p => p.1.bgg_user_name == u) =
      (top_n.filter (fun r => r.bgg_user_name == u)).flatMap (joinRow games) := by
  induction top_n with
  | nil => simp
  | cons r ts ih =>
    simp only [List.flatMap_cons, List.filter_append, List.filter_cons]
    by_cases hr : r.bgg_user_name = u
    · have h1 : (joinRow games r).filter (fun p => p.1.bgg_user_name == u) =
          joinRow games r :=
        List.filter_eq_self.mpr (fun p hp => by rw [joinRow_fst games r p hp]; simp [hr])
      simp [hr, h1, ih]
    · have h1 : (joinRow games r).filter (fun p => p.1.bgg_user_name == u) = [] :=
        List.filter_eq_nil_iff.mpr (fun p hp => by rw [joinRow_fst games r p hp]; simp [hr])
      simp [hr, h1, ih]

/-- Criterion cells of the joined rows of one recommendation row. -/
theorem joinRow_filterMap_cellOf (games : List GameRow) (c : String) (r : RecRow) :
    (joinRow games r).filterMap (cellOf c) =
      (games.filter (fun gm => gm.bgg_id == r.bgg_id)).filterMap
        (fun gm => (gm.cells.lookup c).join) := by
  cases hmatch : games.filter (fun gm => gm.bgg_id == r.bgg_id) with
  | nil =>
    have hj : joinRow games r = [(r, none)] := by
      unfold joinRow
      rw [hmatch]
    rw [hj]
    simp [cellOf]
  | cons g gs =>
    have hj : joinRow games r = List.map (fun gm => (r, some gm)) (g :: gs) := by
      unfold joinRow
      rw [hmatch]
    rw [hj, List.filterMap_map]
    rfl

/-- Selecting through a concatenation of groups selects group by group. -/
theorem filterMap_flatMap_eq (l : List α) (f : α → List β) (g : β → Option γ) :
    (l.flatMap f).filterMap g = l.flatMap (fun x => (f x).filterMap g) := by
  induction l with
  | nil => simp
  | cons a t ih => simp [List.filterMap_append, ih]

/-- Flattening optional lists drops the missing ones. -/
theorem flatten_filterMap_getD (f : α → Option (List β)) :
    ∀ (l : List α), (l.filterMap f).flatten = l.flatMap (fun x => (f x).getD []) := by
  intro l
  induction l with
  | nil => simp
  | cons a t ih =>
    rw [List.filterMap_cons]
    cases hfa : f a with
    | none => simp [hfa, ih]
    | some v => simp [hfa, ih]

/-- Flattening a concatenation of groups flattens group by group. -/
theorem flatten_flatMap (l : List α) (f : α → List (List β)) :
    (l.flatMap f).flatten = l.flatMap (fun x => (f x).flatten) := by
  induction l with
  | nil => simp
  | cons a t ih => simp [List.flatten_append, ih]

/-- Non-missing criterion cells of one user in the joined table, written as a
join over that user's recommendation rows. -/
theorem vals_eq (top_n : List RecRow) (games : List GameRow) (c : String) (u : Nat) :
    ((top_n.flatMap (joinRow games)).filter
        (fun p => p.1.bgg_user_name == u)).filterMap (cellOf c) =
      (top_n.filter (fun r => r.bgg_user_name == u)).flatMap (fun r =>
        (games.filter (fun gm => gm.bgg_id == r.bgg_id)).filterMap
          (fun gm => (gm.cells.lookup c).join)) := by
  rw [joined_filter_user, filterMap_flatMap_eq]
  simp only [joinRow_filterMap_cellOf]

/-- A successful per-user hstack counts exactly the distinct labels of the
specification-side label pool of that user. -/
theorem userCritDiv_ok_eq (top_n : List RecRow) (games : List GameRow) (c : String)
    (u : Nat) (n : Nat)
    (h : userCritDiv (top_n.flatMap (joinRow games)) c u = .ok n) :
    n = (specUserLabels top_n games c u).dedup.length := by
  unfold userCritDiv at h
  set vals := ((top_n.flatMap (joinRow games)).filter
    (fun p => p.1.bgg_user_name == u)).filterMap (cellOf c) with hvals
  by_cases hemp : vals.isEmpty
  · rw [if_pos hemp] at h
    cases h
  · rw [if_neg hemp] at h
    have hn : n = vals.flatten.dedup.length := by
      simp only [Except.ok.injEq] at h
      exact h.symm
    rw [hn, hvals, vals_eq, flatten_flatMap]
    simp only [flatten_filterMap_getD]
    rfl

end Diversity

/-- C3 counterexample: a user whose single recommended item has no metadata
row makes diversity raise the hstack ValueError instead of contributing a zero
count, refuting the claim that such a call does not raise. -/
theorem c3_counterexample :
    diversity [⟨1, 5⟩] [] ["category"] =
      .error "need at least one array to concatenate" := rfl

/-- C3 as amended: a user with no valid attribute data for a criterion —
every metadata row matching one of the user's recommended items has a missing
value for that criterion, which in particular covers items with no metadata
row at all — makes the diversity call fail with an exception (the hstack of an
empty collection, or the earlier KeyError when a criterion column is missing);
the user does not contribute a zero count. -/
theorem c3_amended_missing_user_raises (top_n : List RecRow) (games : List GameRow)
    (cs : List String) (c : String) (u : Nat) (hc : c ∈ cs)
    (hu : u ∈ uniqueFirst (top_n.map RecRow.bgg_user_name))
    (hmiss : ∀ r ∈ top_n, r.bgg_user_name = u → ∀ gm ∈ games,
      gm.bgg_id = r.bgg_id → (gm.cells.lookup c).join = none) :
    exOk (diversity top_n games cs) = false := by
  by_cases hcols : colsOK games cs
  · cases hdiv : diversity top_n games cs with
    | error e => simp [exOk]
    | ok m =>
      exfalso
      have hdiv2 : exceptMap (fun c2 =>
          (exceptMap (userCritDiv (top_n.flatMap (joinRow games)) c2)
            (uniqueFirst (top_n.map RecRow.bgg_user_name))).map
            (fun counts => (c2, meanCounts counts))) cs = .ok m := by
        rw [← hdiv]
        simp [diversity, hcols]
      obtain ⟨p, hp⟩ := exceptMap_ok_of_mem hdiv2 c hc
      cases hinner : exceptMap (userCritDiv (top_n.flatMap (joinRow games)) c)
          (uniqueFirst (top_n.map RecRow.bgg_user_name)) with
      | error e =>
        rw [hinner] at hp
        cases hp
      | ok counts =>
        obtain ⟨nc, hnc⟩ := exceptMap_ok_of_mem hinner u hu
        have hvalsnil : ((top_n.flatMap (joinRow games)).filter
            (fun p2 => p2.1.bgg_user_name == u)).filterMap (cellOf c) = [] := by
          rw [vals_eq]
          rw [List.flatMap_eq_nil_iff]
          intro r hr
          have hru : r.bgg_user_name = u := by
            have := (List.mem_filter.mp hr).2
            simpa using this
          rw [List.filterMap_eq_nil_iff]
          intro gm hgm
          have hid : gm.bgg_id = r.bgg_id := by
            have := (List.mem_filter.mp hgm).2
            simpa using this
          exact hmiss r (List.mem_filter.mp hr).1 hru gm (List.mem_filter.mp hgm).1 hid
        unfold userCritDiv at hnc
        rw [hvalsnil] at hnc
        cases hnc
  · simp [diversity, hcols, exOk]

/-- C3 amended witness at a concrete input exercising the missing-value case:
one user, one recommended item whose metadata row exists but carries a NaN
category cell. -/
theorem c3_amended_witness :
    ("category" ∈ ["category"] ∧
      1 ∈ uniqueFirst (([⟨1, 5⟩] : List RecRow).map RecRow.bgg_user_name) ∧
      (∀ r ∈ ([⟨1, 5⟩] : List RecRow), r.bgg_user_name = 1 →
        ∀ gm ∈ ([⟨5, [("category", none)]⟩] : List GameRow), gm.bgg_id = r.bgg_id →
          (gm.cells.lookup "category").join = none)) ∧
    exOk (diversity [⟨1, 5⟩] [⟨5, [("category", none)]⟩] ["category"]) = false :=
  ⟨⟨by decide, by decide, by decide⟩,
    c3_amended_missing_user_raises [⟨1, 5⟩] [⟨5, [("category", none)]⟩] ["category"]
      "category" 1 (by decide) (by decide) (by decide)⟩

/-- C4: whenever diversity returns, the value reported for each requested
criterion is the arithmetic mean, over the users of the recommendation table,
of the number of distinct labels in the union of the label collections of that
user's recommended items for that criterion, missing values ignored — the
specification-side mean written independently from the spec's words. -/
theorem c4_diversity_is_mean (top_n : List RecRow) (games : List GameRow)
    (cs : List String) (c : String)
    (hok : exOk (diversity top_n games cs) = true) (hc : c ∈ cs) :
    divLookup top_n games cs c = some (specMeanDiversity top_n games c) := by
  by_cases hcols : colsOK games cs
  · cases hdiv : diversity top_n games cs with
    | error e =>
      rw [hdiv] at hok
      simp [exOk] at hok
    | ok m =>
      have hdiv2 : exceptMap (fun c2 =>
          (exceptMap (userCritDiv (top_n.flatMap (joinRow games)) c2)
            (uniqueFirst (top_n.map RecRow.bgg_user_name))).map
            (fun counts => (c2, meanCounts counts))) cs = .ok m := by
        rw [← hdiv]
        simp [diversity, hcols]
      have hpt : ∀ c2, ∀ p, (exceptMap (userCritDiv (top_n.flatMap (joinRow games)) c2)
          (uniqueFirst (top_n.map RecRow.bgg_user_name))).map
          (fun counts => (c2, meanCounts counts)) = .ok p →
          p = (c2, meanCounts ((uniqueFirst (top_n.map RecRow.bgg_user_name)).map
            (fun u => (specUserLabels top_n games c2 u).dedup.length))) := by
        intro c2 p hp
        cases hinner : exceptMap (userCritDiv (top_n.flatMap (joinRow games)) c2)
            (uniqueFirst (top_n.map RecRow.bgg_user_name)) with
        | error e =>
          rw [hinner] at hp
          cases hp
        | ok counts =>
          rw [hinner] at hp
          have hcounts : counts = (uniqueFirst (top_n.map RecRow.bgg_user_name)).map
              (fun u => (specUserLabels top_n games c2 u).dedup.length) :=
            forall2_ok_eq_map (exceptMap_forall2 hinner)
              (fun u n hn => userCritDiv_ok_eq top_n games c2 u n hn)
          simp only [Except.map, Except.ok.injEq] at hp
          rw [← hp, hcounts]
      have hforall : List.Forall₂ (fun c2 p =>
          p = (c2, meanCounts ((uniqueFirst (top_n.map RecRow.bgg_user_name)).map
            (fun u => (specUserLabels top_n games c2 u).dedup.length)))) cs m :=
        (exceptMap_forall2 hdiv2).imp (fun {a b} hab => hpt a b hab)
      have hlook := lookup_of_forall2 hforall c hc
      have hmean : meanCounts ((uniqueFirst (top_n.map RecRow.bgg_user_name)).map
          (fun u => (specUserLabels top_n games c u).dedup.length)) =
          specMeanDiversity top_n games c := by
        unfold meanCounts specMeanDiversity
        by_cases hemp : (uniqueFirst (top_n.map RecRow.bgg_user_name)).isEmpty
        · have husers : uniqueFirst (top_n.map RecRow.bgg_user_name) = [] :=
            List.isEmpty_iff.mp hemp
          simp [husers]
        · rw [if_neg (by simpa using hemp), if_neg hemp]
          congr 1
          rw [Rat.mkRat_eq_div, List.length_map]
          congr 1
          rw [Int.cast_natCast, Nat.cast_list_sum, List.map_map]
          rfl
      have hdl : divLookup top_n games cs c = List.lookup c m := by
        unfold divLookup
        rw [hdiv]
      rw [hdl, hlook, hmean]
  · rw [diversity, if_neg hcols] at hok
    simp [exOk] at hok

/-- C4 witness: one user with two recommended items carrying category sets
containing A, B and B, C has mean category diversity 3. -/
theorem c4_witness :
    divLookup [⟨1, 5⟩, ⟨1, 6⟩]
        [⟨5, [("category", some ["A", "B"])]⟩, ⟨6, [("category", some ["B", "C"])]⟩]
        ["category"] "category" =
      some (specMeanDiversity [⟨1, 5⟩, ⟨1, 6⟩]
        [⟨5, [("category", some ["A", "B"])]⟩, ⟨6, [("category", some ["B", "C"])]⟩]
        "category") ∧
    divLookup [⟨1, 5⟩, ⟨1, 6⟩]
        [⟨5, [("category", some ["A", "B"])]⟩, ⟨6, [("category", some ["B", "C"])]⟩]
        ["category"] "category" = some (some 3) :=
  ⟨c4_diversity_is_mean [⟨1, 5⟩, ⟨1, 6⟩]
      [⟨5, [("category", some ["A", "B"])]⟩, ⟨6, [("category", some ["B", "C"])]⟩]
      ["category"] "category" (by decide) (by decide),
    by decide⟩

/-- C6: coverage counts the distinct item identifiers of the bgg_id column —
it is invariant under row reordering, collapses duplicates (it equals the
cardinality of the set of identifiers), returns 3 on a table with items
1, 1, 2, 3 and returns 0 on an empty table. -/
theorem c6_coverage_distinct_count :
    (∀ l l2 : List RecRow, l.Perm l2 → coverage l = coverage l2) ∧
    (∀ l : List RecRow, coverage l = (l.map RecRow.bgg_id).toFinset.card) ∧
    coverage [⟨1, 1⟩, ⟨2, 1⟩, ⟨3, 2⟩, ⟨4, 3⟩] = 3 ∧
    coverage [] = 0 := by
  have hcov : ∀ l : List RecRow, coverage l = (l.map RecRow.bgg_id).toFinset.card := by
    intro l
    have hperm : (uniqueFirst (l.map RecRow.bgg_id)).Perm (l.map RecRow.bgg_id).dedup :=
      (List.perm_ext_iff_of_nodup (nodup_uniqueFirst _) (List.nodup_dedup _)).mpr
        (fun a => by rw [mem_uniqueFirst, List.mem_dedup])
    rw [coverage, hperm.length_eq, List.card_toFinset]
  refine ⟨?_, hcov, by decide, by decide⟩
  intro l l2 hp
  rw [hcov, hcov, List.toFinset_eq_of_perm _ _ (hp.map RecRow.bgg_id)]

/-- C6 witness: coverage is unchanged under a concrete row reordering. -/
theorem c6_witness :
    ([⟨1, 1⟩, ⟨2, 1⟩, ⟨3, 2⟩] : List RecRow).Perm [⟨3, 2⟩, ⟨1, 1⟩, ⟨2, 1⟩] ∧
    coverage [⟨1, 1⟩, ⟨2, 1⟩, ⟨3, 2⟩] = coverage [⟨3, 2⟩, ⟨1, 1⟩, ⟨2, 1⟩] :=
  ⟨by decide,
    c6_coverage_distinct_count.1 [⟨1, 1⟩, ⟨2, 1⟩, ⟨3, 2⟩] [⟨3, 2⟩, ⟨1, 1⟩, ⟨2, 1⟩]
      (by decide)⟩

/-- C9: none of the four functions mutates its input tables, or any other
object already allocated when the call starts: every pre-existing store cell
reads the same after the call.  The single in-place operation of the file,
np.random.shuffle, targets the fresh array returned by unique(). -/
theorem c9_no_input_mutation (σ : Store) (r rT rG : Nat) (seed : Option Nat) (frac : ℚ)
    (g0 : Nat) (cs : List String) (i : Nat) (hi : i < σ.length) :
    ((split_ratings_dataset_st σ r seed frac g0).1)[i]? = σ[i]? ∧
    ((split_testing_set_st σ r seed frac g0).1)[i]? = σ[i]? ∧
    ((coverage_st σ r).1)[i]? = σ[i]? ∧
    ((diversity_st σ rT rG cs).1)[i]? = σ[i]? := by
  have happl : ∀ (Δ : List Val), (σ ++ Δ)[i]? = σ[i]? := by
    intro Δ
    rw [List.getElem?_append, if_pos hi]
  have hset : ∀ (x y : Val) (Δ : List Val),
      (((σ ++ [x]).set σ.length y) ++ Δ)[i]? = σ[i]? := by
    intro x y Δ
    have hlen : i < ((σ ++ [x]).set σ.length y).length := by
      simp
      omega
    rw [List.getElem?_append, if_pos hlen, List.getElem?_set_ne (by omega)]
    exact happl [x]
  refine ⟨hset _ _ _, ?_, happl _, happl _⟩
  cases hres : split_testing_set (getTable σ r) seed frac g0 with
  | ok p =>
    have hst : (split_testing_set_st σ r seed frac g0).1 =
        σ ++ [Val.table p.1.1, Val.table p.1.2] := by
      simp only [split_testing_set_st]
      rw [hres]
    rw [hst]
    exact happl _
  | error e =>
    have hst : (split_testing_set_st σ r seed frac g0).1 = σ := by
      simp only [split_testing_set_st]
      rw [hres]
    rw [hst]

/-- C9 witness on a concrete one-cell store. -/
theorem c9_witness :
    (0 < ([Val.table [⟨1, 10, 5⟩]] : Store).length) ∧
    (((split_ratings_dataset_st [Val.table [⟨1, 10, 5⟩]] 0 (some 0) (mkRat 1 2) 0).1)[0]? =
        ([Val.table [⟨1, 10, 5⟩]] : Store)[0]? ∧
      ((split_testing_set_st [Val.table [⟨1, 10, 5⟩]] 0 (some 0) (mkRat 1 2) 0).1)[0]? =
        ([Val.table [⟨1, 10, 5⟩]] : Store)[0]? ∧
      ((coverage_st [Val.table [⟨1, 10, 5⟩]] 0).1)[0]? =
        ([Val.table [⟨1, 10, 5⟩]] : Store)[0]? ∧
      ((diversity_st [Val.table [⟨1, 10, 5⟩]] 0 0 ["category"]).1)[0]? =
        ([Val.table [⟨1, 10, 5⟩]] : Store)[0]?) :=
  ⟨by decide,
    c9_no_input_mutation [Val.table [⟨1, 10, 5⟩]] 0 0 0 (some 0) (mkRat 1 2) 0
      ["category"] 0 (by decide)⟩

end BG
